import Mathlib

/-!
Verification of the go-gateway request-dispatch pipeline: a shallow
embedding, in Lean 4, of the route table (`pkg/route/router.go`), the
load-balancing strategies (`pkg/loadbalancer/loadbalancer.go`), the
middleware chain (`go-gateway/pkg/middleware/middleware.go`) and the
dispatcher's target resolution (`go-gateway/main.go`), together with
proofs and refutations of the specified properties.

Go strings are modelled as Lean `String`s, with the byte-level helpers of
Go's `strings` package re-implemented over `String.data`; Go `int` values
are modelled as `Int` (or as `Nat` where the source maintains the value
non-negative, noted at each definition); Go `nil` results are `Option`;
a Go runtime panic is the `.error` case of `Except Unit`.
-/

namespace GoGateway

/-! ## Go standard-library string helpers -/

/-- Go `strings.HasPrefix` over rune lists: `s` starts with `pre`. -/
def startsWithL : List Char → List Char → Bool
  | _, [] => true
  | [], _ :: _ => false
  | c :: s, p :: ps => c == p && startsWithL s ps

/-- Go `strings.HasPrefix(s, pre)`. -/
def goHasPre (s pre : String) : Bool :=
  startsWithL s.data pre.data

/-- Go `strings.Replace(pattern, "**", "*", -1)`: replace every
non-overlapping occurrence of `**` (scanning left to right) by `*`. -/
def replaceDoubleStar : List Char → List Char
  | '*' :: '*' :: rest => '*' :: replaceDoubleStar rest
  | c :: rest => c :: replaceDoubleStar rest
  | [] => []

/-! ## Middleware chain (`go-gateway/pkg/middleware/middleware.go`)

A handler is modelled by the observable behaviour of its three methods:
whether `PreHandle` returns `true`, and whether `PostHandle` returns a
non-nil error (in which case `Execute` calls `HandleError`).  An execution
of the chain is recorded as the list of method-call events it performs, in
order. -/

structure MWHandler where
  preReturn : Bool
  postErr : Bool
deriving DecidableEq, Repr

inductive MWEvent where
  /-- `PreHandle` was invoked on the handler at position `i`. -/
  | preEv (i : Nat)
  /-- `PostHandle` was invoked on the handler at position `i`. -/
  | postEv (i : Nat)
  /-- `HandleError` was invoked on the handler at position `i`. -/
  | errEv (i : Nat)
deriving DecidableEq, Repr

/-- The forward pass of `MiddlewareChain.Execute`: repeatedly take the
handler at the cursor, increment the cursor, call `PreHandle`, and stop
when it returns `false`.  The loop `for mc.index < len(mc.handlers)` that
indexes `mc.handlers[mc.index]` is rendered as a structural walk of the
still-unvisited suffix, with `index` the cursor.  Returns the emitted
events and the final value of `mc.index`. -/
def mcForwardAux : List MWHandler → Nat → List MWEvent × Nat
  | [], index => ([], index)
  | handler :: rest, index =>
    if handler.preReturn then
      let r := mcForwardAux rest (index + 1)
      (MWEvent.preEv index :: r.1, r.2)
    else
      ([MWEvent.preEv index], index + 1)

/-- The forward pass from the initial cursor `0` set by
`NewMiddlewareChain`. -/
def mcForward (handlers : List MWHandler) : List MWEvent × Nat :=
  mcForwardAux handlers 0

/-- The events of one `PostHandle` call on the handler at position `i`
(followed by `HandleError` when `PostHandle` returned an error). -/
def postEvents (handlers : List MWHandler) (i : Nat) : List MWEvent :=
  match handlers.get? i with
  | some h => if h.postErr then [MWEvent.postEv i, MWEvent.errEv i] else [MWEvent.postEv i]
  | none => []

/-- `MiddlewareChain.Execute` (variant of `go-gateway/pkg/middleware`):
forward pass from cursor `0`, then the backward pass
`for i := len(handlers)-1; i >= startIndex; i--` with
`startIndex := mc.index - 1` clamped at `0` (`Nat` subtraction performs
exactly the source's `if startIndex < 0 { startIndex = 0 }` clamp).
The variant duplicated inside the repository without the clamp behaves
identically on every non-empty handler list. -/
def mcExecute (handlers : List MWHandler) : List MWEvent :=
  let fwd := mcForward handlers
  let startIndex := fwd.2 - 1
  fwd.1 ++ ((List.range' startIndex (handlers.length - startIndex)).reverse.map
      (postEvents handlers)).flatten

/-- The call sequence that claim C1 (and §4.3 of the spec) mandates for the
chain: `PostHandle` exactly for the handlers whose `PreHandle` executed, in
reverse order of their forward execution. -/
def mcSpecTrace (handlers : List MWHandler) : List MWEvent :=
  let fwd := mcForward handlers
  fwd.1 ++ ((List.range' 0 fwd.2).reverse.map (postEvents handlers)).flatten

/-! ## Route table (`pkg/route/router.go`) -/

/-- The dynamic payload of `Predicate.Args` / `Filter.Args`
(Go `interface{}`).  `strMap` is the dynamic type `map[string]string`
(modelled as an association list, first binding wins); `other` stands for
every other dynamic type, on which the source's single-value type
assertion `predicate.Args.(map[string]string)` panics. -/
inductive Args where
  | strMap (m : List (String × String)) : Args
  | other : Args
deriving DecidableEq

/-- First-match lookup in a `map[string]string` model (Go map keys are
unique, so an association list with first-match lookup is faithful). -/
def lookupStr : List (String × String) → String → Option String
  | [], _ => none
  | (k, v) :: rest, key => if k == key then some v else lookupStr rest key

structure Predicate where
  name : String
  args : Args
deriving DecidableEq

structure Filter where
  name : String
  args : Args
deriving DecidableEq

structure Route where
  id : String
  uri : String
  predicates : List Predicate
  filters : List Filter
  order : Int
  metadata : List (String × String)
deriving DecidableEq

/-- `pathMatch(pattern, path)`.  The source computes a glob/regex string
that it never uses (dead assignments to `globPattern` after the `Contains`
test); its live behaviour is: when the pattern (with `**` collapsed to
`*`) contains a `*`, return `true` if the pattern starts with `/api/**`
and the path starts with `/api/`; in every other case return
`pattern == path`. -/
def pathMatch (pattern path : String) : Bool :=
  let globPattern := replaceDoubleStar pattern.data
  if globPattern.contains '*' then
    if goHasPre pattern "/api/**" && goHasPre path "/api/" then
      true
    else
      pattern == path
  else
    pattern == path

/-- `matchRoute`'s loop over `route.Predicates`.  For a `Path` predicate
the source evaluates `predicate.Args.(map[string]string)["pattern"]`: the
comma-ok form covers only the map index, so the single-value type
assertion panics (`.error ()`) whenever `Args` is not a
`map[string]string`; a missing `"pattern"` key is skipped (`continue`). -/
def matchPreds : List Predicate → String → Except Unit Bool
  | [], _ => .ok false
  | p :: rest, path =>
    if p.name == "Path" then
      match p.args with
      | .strMap m =>
        match lookupStr m "pattern" with
        | some pattern =>
          if pathMatch pattern path then .ok true else matchPreds rest path
        | none => matchPreds rest path
      | .other => .error ()
    else
      matchPreds rest path

/-- `matchRoute(route, path)`. -/
def matchRoute (route : Route) (path : String) : Except Unit Bool :=
  matchPreds route.predicates path

/-- `Router.Match(path)`: first route whose predicates match, else `nil`.
A panic raised by `matchRoute` propagates. -/
def routerMatch : List Route → String → Except Unit (Option Route)
  | [], _ => .ok none
  | route :: rest, path =>
    match matchRoute route path with
    | .error e => .error e
    | .ok true => .ok (some route)
    | .ok false => routerMatch rest path

/-- The ordering established by `sort.Slice`'s comparator
`less = (Order <)`: afterwards consecutive routes satisfy
`!(b.Order < a.Order)`, i.e. `a.Order ≤ b.Order`. -/
def routeLE (a b : Route) : Prop :=
  a.order ≤ b.order

instance : DecidableRel routeLE :=
  fun a b => inferInstanceAs (Decidable (a.order ≤ b.order))

instance : IsTotal Route routeLE :=
  ⟨fun a b => Int.le_total a.order b.order⟩

instance : IsTrans Route routeLE :=
  ⟨fun _ _ _ h₁ h₂ => le_trans h₁ h₂⟩

/-- `sort.Slice(r.routes, less)` with `less = (Order <)`: the slice is
re-ordered so that it is sorted by `Order`.  Go's sort is unstable, so
any sorted permutation of the input is a faithful model (under C4's
distinct-`Order` hypothesis the sorted permutation is unique); insertion
sort is used as the model because it computes by structural recursion. -/
def sortByOrder (routes : List Route) : List Route :=
  List.insertionSort routeLE routes

/-- `Router.AddRoute(route)`: append, then re-sort by `Order`. -/
def routerAddRoute (routes : List Route) (route : Route) : List Route :=
  sortByOrder (routes ++ [route])

/-- The table obtained by adding each route of `rs`, in order, to a fresh
`Router`. -/
def addAll (rs : List Route) : List Route :=
  rs.foldl routerAddRoute []

/-- Total (panic-free) reading of `matchRoute`, used to phrase which
routes of a well-formed table match a path. -/
def matchesB (route : Route) (path : String) : Bool :=
  match matchRoute route path with
  | .ok b => b
  | .error _ => false

/-- A route on which `matchRoute` cannot panic: every predicate named
`"Path"` carries a `map[string]string` payload. -/
def routeWF (route : Route) : Bool :=
  route.predicates.all fun p =>
    p.name != "Path" || (match p.args with | .strMap _ => true | .other => false)

/-- Claim C4's description of `Match` over the table built from `rs`: the
returned route (if any) is a matching route of `rs` of minimal `Order` —
strictly minimal among the other matching routes — and `none` is returned
exactly when no route matches; `Match` does not fail. -/
def MatchOutcome (rs : List Route) (path : String) : Prop :=
  match routerMatch (addAll rs) path with
  | .ok (some r) =>
      r ∈ rs ∧ matchesB r path = true
        ∧ (∀ x ∈ rs, matchesB x path = true → r.order ≤ x.order)
        ∧ (∀ x ∈ rs, x ≠ r → matchesB x path = true → r.order < x.order)
  | .ok none => ∀ r ∈ rs, matchesB r path = false
  | .error _ => False

/-! ## Load balancers (`pkg/loadbalancer/loadbalancer.go`) -/

/-- Backend server descriptor (`URL string; Weight int`). -/
structure Server where
  url : String
  weight : Int
deriving DecidableEq, Repr

/-- The duplicate-filtering loop shared verbatim by the three
`ChooseServer` implementations: keep a server only when its URL has not
been `seen` yet.  `seen` models the `map[string]bool`. -/
def dedupeAux (seen : List String) : List Server → List Server
  | [] => []
  | server :: rest =>
    if seen.contains server.url then
      dedupeAux seen rest
    else
      server :: dedupeAux (server.url :: seen) rest

/-- `uniqueServers` as computed at the top of each `ChooseServer`. -/
def dedupeServers (servers : List Server) : List Server :=
  dedupeAux [] servers

/-- `RoundRobinBalancer.ChooseServer(servers)`.  The strategy state is the
cursor `rr.currentIndex` (a Go `int` that is `0` initially and only ever
incremented, hence non-negative: modelled as `Nat`).  Returns the chosen
server (or `nil`) and the new cursor. -/
def rrChoose (currentIndex : Nat) (servers : List Server) : Option Server × Nat :=
  if servers.isEmpty then (none, currentIndex)
  else
    let uniqueServers := dedupeServers servers
    if h : uniqueServers.isEmpty then (none, currentIndex)
    else
      (some (uniqueServers.get ⟨currentIndex % uniqueServers.length,
          Nat.mod_lt _ (List.length_pos.mpr (by simpa using h))⟩),
        currentIndex + 1)

/-- `RandomBalancer.ChooseServer(servers)` with the draw of its random
source abstracted: `idx` is the value returned by
`rb.rand.Intn(len(uniqueServers))`, which Go guarantees to lie in
`[0, len(uniqueServers))`; out-of-contract values yield `none` here where
the source could not receive them. -/
def randChoose (idx : Nat) (servers : List Server) : Option Server :=
  if servers.isEmpty then none
  else
    let uniqueServers := dedupeServers servers
    uniqueServers.get? idx

/-- `totalWeight` as recomputed inside
`WeightedRoundRobinBalancer.ChooseServer` over the deduplicated input. -/
def sumWeights (servers : List Server) : Int :=
  servers.foldl (fun acc server => acc + server.weight) 0

/-- The cumulative-weight selection loop of
`WeightedRoundRobinBalancer.ChooseServer`: `c` is the fixed value
`wrr.currentIndex % totalWeight` and `acc` the running `currentWeight`;
the first server whose cumulative range contains `c` is returned, `none`
when the loop falls through. -/
def wrrScan (c : Int) (acc : Int) : List Server → Option Server
  | [] => none
  | server :: rest =>
    let acc2 := acc + server.weight
    if c < acc2 then some server else wrrScan c acc2 rest

/-- `WeightedRoundRobinBalancer.ChooseServer(servers)`.  The cursor
`wrr.currentIndex` is a Go `int` that is non-negative in every reachable
state (it starts at `0`, and both updates — `currentIndex++` and
`currentIndex = (currentIndex+1) % totalWeight` — keep a non-negative
`int` non-negative under Go's truncated `%`), so it is modelled as `Nat`;
`% totalWeight` on it is `% totalWeight.natAbs`, which agrees with Go's
truncated `%` for every non-negative dividend.  Returns the chosen server
(or `nil`) and the new cursor. -/
def wrrChoose (currentIndex : Nat) (servers : List Server) : Option Server × Nat :=
  if servers.isEmpty then (none, currentIndex)
  else
    let uniqueServers := dedupeServers servers
    if h : uniqueServers.isEmpty then (none, currentIndex)
    else
      let totalWeight : Int := sumWeights uniqueServers
      if totalWeight == 0 then
        (some (uniqueServers.get ⟨currentIndex % uniqueServers.length,
            Nat.mod_lt _ (List.length_pos.mpr (by simpa using h))⟩),
          currentIndex + 1)
      else
        match wrrScan ((currentIndex % totalWeight.natAbs : Nat) : Int) 0 uniqueServers with
        | some server => (some server, (currentIndex + 1) % totalWeight.natAbs)
        | none =>
          (some (uniqueServers.get ⟨0, List.length_pos.mpr (by simpa using h)⟩),
            (currentIndex + 1) % totalWeight.natAbs)

/-- `n` consecutive `ChooseServer` calls of a cursor-based strategy
against a fixed server list, returning the chosen servers in order. -/
def runChooser (choose : Nat → List Server → Option Server × Nat)
    (servers : List Server) : Nat → Nat → List (Option Server)
  | 0, _ => []
  | n + 1, st =>
    let r := choose st servers
    r.1 :: runChooser choose servers n r.2

/-- `n` consecutive `RoundRobinBalancer.ChooseServer` calls from cursor
`st`. -/
def runRR (servers : List Server) (n st : Nat) : List (Option Server) :=
  runChooser rrChoose servers n st

/-- `n` consecutive `WeightedRoundRobinBalancer.ChooseServer` calls from
cursor `st`. -/
def runWRR (servers : List Server) (n st : Nat) : List (Option Server) :=
  runChooser wrrChoose servers n st

/-- The deduplicated list as claim C10 describes it: the first occurrence
of each distinct address, in input order — every later entry with an
already-present URL is dropped wholesale (weight included).  Stated from
the claim's words, to be proved equal to `dedupeServers`. -/
def firstOccurrences : List Server → List Server
  | [] => []
  | server :: rest =>
    server :: firstOccurrences (rest.filter fun s => s.url != server.url)
termination_by l => l.length
decreasing_by
  simp only [List.length_cons]
  exact Nat.lt_succ_of_le (List.length_filter_le _ _)

/-- The selection schedule of the weighted round-robin scheme: each
server repeated as many times as its weight.  `wrrScan` at cursor value
`c` returns exactly the `c`-th entry of this list (proved below); used to
phrase and prove claim C6's counting property. -/
def flattenW (servers : List Server) : List Server :=
  servers.flatMap fun s => List.replicate s.weight.toNat s

/-! ## Configuration manager (`StaticConfigManager.AddRoute`,
`go-gateway/pkg/config/config.go`) -/

/-- `StaticConfigManager.AddRoute(route)`: replace the first route with
the same ID in place, else append. -/
def scmAddRoute : List Route → Route → List Route
  | [], route => [route]
  | r :: rest, route =>
    if r.id == route.id then route :: rest else r :: scmAddRoute rest route

/-- The config manager's route list after adding each route of `rs`, in
order, starting from the empty configuration of
`NewStaticConfigManager`. -/
def scmAddAll (rs : List Route) : List Route :=
  rs.foldl scmAddRoute []

/-! ## Dispatcher (`Gateway.ServeHTTP`, `go-gateway/main.go`) -/

/-- Model of `net/url.Parse` succeeding.  Go's `Parse` is permissive: it
accepts any `scheme://…` string (in particular `lb://service-a`) and
fails only on malformed inputs such as ASCII control characters.  Only
its verdict on the target strings arising here matters. -/
def urlParseOk (s : String) : Bool :=
  s.data.all fun c => !(decide (c.toNat < 32) || c.toNat == 127)

/-- The per-request outcome of `Gateway.ServeHTTP`, abstracting the
transport: `forward target` hands the request to the reverse proxy built
for `target`. -/
inductive DispatchResult where
  | notFound : DispatchResult
  | errorResponse : DispatchResult
  | forward (target : String) : DispatchResult
  | panicked : DispatchResult
deriving DecidableEq, Repr

/-- `Gateway.ServeHTTP`: match the route table; on `nil` respond 404;
otherwise run the middleware chain (which cannot alter the outcome below)
and resolve the target: an `lb://` URI is replaced by a chosen server's
URL only when the balancer holds servers and returns one — otherwise the
`lb://` URI is left in place; finally `url.Parse` the target (500 on
error) and forward.  `lbServers`/`lbCursor` are the round-robin
balancer's state (`GetServers` returns a copy of `lbServers`). -/
def serveHTTP (routes : List Route) (lbServers : List Server) (lbCursor : Nat)
    (path : String) : DispatchResult :=
  match routerMatch routes path with
  | .error _ => .panicked
  | .ok none => .notFound
  | .ok (some matchedRoute) =>
    let targetURL := matchedRoute.uri
    let targetURL :=
      if goHasPre targetURL "lb://" then
        if 0 < lbServers.length then
          match (rrChoose lbCursor lbServers).1 with
          | some chosenServer => chosenServer.url
          | none => targetURL
        else targetURL
      else targetURL
    if urlParseOk targetURL then .forward targetURL else .errorResponse

end GoGateway

namespace GoGateway

/-! ### Concrete instances used by the counterexample / failing-input
theorems -/

/-- Three middleware handlers: A and C's `PreHandle` return `true`, B's
returns `false`; no `PostHandle` errors. -/
def handlersABC : List MWHandler :=
  [⟨true, false⟩, ⟨false, false⟩, ⟨true, false⟩]

/-- A route whose single predicate is named `Path` but whose `Args`
payload is not a `map[string]string` (e.g. the `map[string]interface{}`
produced by unmarshalling a JSON config file). -/
def badArgsRoute : Route :=
  { id := "bad", uri := "http://backend:8080",
    predicates := [⟨"Path", Args.other⟩], filters := [], order := 0,
    metadata := [] }

/-- A load-balanced route: its URI uses the `lb://` reference form and its
predicate matches the path `/api/svc` exactly. -/
def lbRoute : Route :=
  { id := "svc", uri := "lb://service-a",
    predicates := [⟨"Path", Args.strMap [("pattern", "/api/svc")]⟩],
    filters := [], order := 1, metadata := [] }

/-- Two routes sharing the ID `dup` (differing URIs and orders). -/
def dupRouteA : Route :=
  { id := "dup", uri := "http://backend1:8080", predicates := [],
    filters := [], order := 0, metadata := [] }

def dupRouteB : Route :=
  { id := "dup", uri := "http://backend2:8080", predicates := [],
    filters := [], order := 1, metadata := [] }

/-- Two well-formed routes that both match the path `/x`, with distinct
orders: the `Order 0` route must win. -/
def exactLow : Route :=
  { id := "low-priority", uri := "http://backend1",
    predicates := [⟨"Path", Args.strMap [("pattern", "/x")]⟩],
    filters := [], order := 1, metadata := [] }

def exactHigh : Route :=
  { id := "high-priority", uri := "http://backend2",
    predicates := [⟨"Path", Args.strMap [("pattern", "/x")]⟩],
    filters := [], order := 0, metadata := [] }

/-- Two uniquely-addressed servers of equal weight (round-robin
fixture). -/
def srvA : Server := ⟨"http://server1:8080", 1⟩

def srvB : Server := ⟨"http://server2:8080", 1⟩

/-- Two uniquely-addressed servers of weights 3 and 1 (weighted
round-robin fixture). -/
def wsrvHigh : Server := ⟨"http://high-weight:8080", 3⟩

def wsrvLow : Server := ⟨"http://low-weight:8080", 1⟩

/-- A server of weight 0 (zero-total-weight fallback fixture). -/
def zsrv : Server := ⟨"http://zero-weight:8080", 0⟩

end GoGateway

namespace GoGateway

/-- Claim C1 (code_bug evidence): on handlers `[A, B, C]` with
`A.PreHandle = true` and `B.PreHandle = false`, `MiddlewareChain.Execute`
performs `A.Pre, B.Pre, C.Post, B.Post` — it invokes `PostHandle` on `C`,
whose `PreHandle` never ran, and never invokes `A.PostHandle` — whereas
the claimed sequence is `A.Pre, B.Pre, B.Post, A.Post`. -/
theorem mcExecute_shortCircuit_bug :
    mcExecute handlersABC
      = [MWEvent.preEv 0, MWEvent.preEv 1, MWEvent.postEv 2, MWEvent.postEv 1]
    ∧ mcSpecTrace handlersABC
      = [MWEvent.preEv 0, MWEvent.preEv 1, MWEvent.postEv 1, MWEvent.postEv 0] := by
  constructor <;> rfl

/-- Claim C2 (code_bug evidence): the pattern `/**` ends in `/**` and the
path `/index` begins with the pattern minus the trailing `/**` (the empty
string), yet `pathMatch` rejects it; `main.go` registers exactly this
pattern as its catch-all ("All paths") fallback route. -/
theorem pathMatch_doubleStar_bug :
    pathMatch "/**" "/index" = false
    ∧ goHasPre "/index" "" = true
    ∧ pathMatch "/api/**" "/api/users/123" = true := by
  refine ⟨?_, ?_, ?_⟩ <;> rfl

/-- Claim C3 (code_bug evidence): `Router.Match` panics (modelled as
`.error ()`) on a table containing a `Path` predicate whose `Args` is not
a `map[string]string`, instead of returning a route or `nil`. -/
theorem routerMatch_panics_on_bad_args :
    routerMatch [badArgsRoute] "/index" = .error () := by
  rfl

/-- Claim C5 (code_bug evidence): when the matched route's URI is
`lb://service-a` and the load balancer holds no servers, `ServeHTTP`
leaves the `lb://` URI as the target — `url.Parse` accepts it, so no
error response is produced and the request is handed to the reverse
proxy with the unresolved (invalid) target. -/
theorem serveHTTP_lb_noServer_forwards_unresolved :
    serveHTTP [lbRoute] [] 0 "/api/svc" = .forward "lb://service-a" := by
  rfl

/-- Claim C9: every `ChooseServer` strategy returns `nil` on an empty
server list, and `Router.Match` on an empty table returns `nil` for every
path (without touching the cursor or random state). -/
theorem chooseServer_empty_match_empty :
    (∀ st, rrChoose st [] = (none, st))
    ∧ (∀ idx, randChoose idx [] = none)
    ∧ (∀ st, wrrChoose st [] = (none, st))
    ∧ (∀ path, routerMatch [] path = .ok none) :=
  ⟨fun _ => rfl, fun _ => rfl, fun _ => rfl, fun _ => rfl⟩

/-- Claim C8 (counterexample): `Router.AddRoute` appends without any ID
check, so inserting two routes with the ID `dup` leaves both in the
table — duplicate IDs coexist, nothing is replaced in place. -/
theorem routerAddRoute_duplicate_ids :
    (addAll [dupRouteA, dupRouteB]).map Route.id = ["dup", "dup"]
    ∧ ¬ ((addAll [dupRouteA, dupRouteB]).map Route.id).Nodup := by
  decide

/-! ### Deduplication keeps first occurrences (towards C10) -/

theorem dedupeAux_eq_firstOccurrences (l : List Server) :
    ∀ seen : List String,
      dedupeAux seen l = firstOccurrences (l.filter fun s => !seen.contains s.url) := by
  induction l with
  | nil => intro seen; simp [dedupeAux, firstOccurrences]
  | cons s rest ih =>
    intro seen
    by_cases h : seen.contains s.url
    · rw [dedupeAux, if_pos h, ih seen]
      congr 1
      have hm : s.url ∈ seen := by simpa using h
      simp [List.filter_cons, hm]
    · have hm : s.url ∉ seen := by simpa using h
      rw [dedupeAux, if_neg h, ih (s.url :: seen)]
      have hfil : (s :: rest).filter (fun x => !seen.contains x.url)
          = s :: rest.filter (fun x => !seen.contains x.url) := by
        simp [List.filter_cons, hm]
      rw [hfil, firstOccurrences, List.filter_filter]
      congr 2
      apply List.filter_congr
      intro x _
      by_cases hx : x.url = s.url
      · simp [hx]
      · simp [List.contains_cons, hx, Ne.symm hx]

theorem dedupeServers_eq_firstOccurrences (servers : List Server) :
    dedupeServers servers = firstOccurrences servers := by
  rw [dedupeServers, dedupeAux_eq_firstOccurrences]
  congr 1
  simp

theorem wrrScan_mem {c : Int} {l : List Server} {s : Server} :
    ∀ {acc : Int}, wrrScan c acc l = some s → s ∈ l := by
  induction l with
  | nil => intro acc h; simp [wrrScan] at h
  | cons t rest ih =>
    intro acc h
    simp only [wrrScan] at h
    split at h
    · cases h; exact List.mem_cons_self _ _
    · exact List.mem_cons_of_mem _ (ih h)

/-- Claim C10: each `ChooseServer` strategy deduplicates its input to the
first occurrence of each distinct address, in input order (every later
duplicate entry, weight included, is dropped), and only ever selects a
member of that deduplicated list. -/
theorem chooseServer_first_occurrences :
    (∀ servers, dedupeServers servers = firstOccurrences servers)
    ∧ (∀ st servers,
        ((rrChoose st servers).1).elim True (· ∈ dedupeServers servers))
    ∧ (∀ idx servers,
        (randChoose idx servers).elim True (· ∈ dedupeServers servers))
    ∧ (∀ st servers,
        ((wrrChoose st servers).1).elim True (· ∈ dedupeServers servers)) := by
  refine ⟨dedupeServers_eq_firstOccurrences, ?_, ?_, ?_⟩
  · intro st servers
    simp only [rrChoose]
    split
    · trivial
    · split
      · trivial
      · exact List.get_mem _ _ _
  · intro idx servers
    simp only [randChoose]
    split
    · trivial
    · cases h : (dedupeServers servers).get? idx with
      | none => simp [h]
      | some s => simp [h]; exact List.get?_mem h
  · intro st servers
    simp only [wrrChoose]
    split
    · trivial
    · split
      · trivial
      · split
        · exact List.get_mem _ _ _
        · split
          next s hscan => exact wrrScan_mem hscan
          next hscan => exact List.get_mem _ _ _

/-! ### Config-manager ID uniqueness (towards C8) -/

theorem mem_scmAddRoute_ids {routes : List Route} {route : Route} {x : String} :
    x ∈ (scmAddRoute routes route).map Route.id →
      x ∈ routes.map Route.id ∨ x = route.id := by
  induction routes with
  | nil =>
    intro hx
    simp [scmAddRoute] at hx
    simp [hx]
  | cons r rest ih =>
    intro hx
    by_cases hb : r.id == route.id
    · rw [scmAddRoute, if_pos hb] at hx
      simp only [List.map_cons, List.mem_cons] at hx
      rcases hx with hx | hx
      · right; exact hx
      · left; simp only [List.map_cons, List.mem_cons]; right; exact hx
    · rw [scmAddRoute, if_neg hb] at hx
      simp only [List.map_cons, List.mem_cons] at hx
      rcases hx with hx | hx
      · left; simp only [List.map_cons, List.mem_cons]; left; exact hx
      · rcases ih hx with h | h
        · left; simp only [List.map_cons, List.mem_cons]; right; exact h
        · right; exact h

theorem scmAddRoute_nodup {routes : List Route} (route : Route)
    (h : (routes.map Route.id).Nodup) :
    ((scmAddRoute routes route).map Route.id).Nodup := by
  induction routes with
  | nil => simp [scmAddRoute]
  | cons r rest ih =>
    simp only [List.map_cons, List.nodup_cons] at h
    obtain ⟨hr, hrest⟩ := h
    by_cases hb : r.id == route.id
    · have heq : r.id = route.id := by simpa using hb
      rw [scmAddRoute, if_pos hb]
      simp only [List.map_cons, List.nodup_cons]
      exact ⟨heq ▸ hr, hrest⟩
    · rw [scmAddRoute, if_neg hb]
      simp only [List.map_cons, List.nodup_cons]
      refine ⟨?_, ih hrest⟩
      intro hmem
      rcases mem_scmAddRoute_ids hmem with hmem' | hmem'
      · exact hr hmem'
      · exact hb (by simpa using hmem')

theorem scmAddAll_go (rs : List Route) :
    ∀ acc : List Route, (acc.map Route.id).Nodup →
      ((rs.foldl scmAddRoute acc).map Route.id).Nodup := by
  induction rs with
  | nil => intro acc hacc; simpa using hacc
  | cons r rest ih =>
    intro acc hacc
    exact ih (scmAddRoute acc r) (scmAddRoute_nodup r hacc)

/-- Claim C8 (amended): the configuration manager's `AddRoute` maintains
unique IDs — after every sequence of insertions no two routes share an
ID, and inserting a route whose ID already exists replaces it in place,
leaving the table's ID sequence unchanged.  (`Router.AddRoute`, by
contrast, appends unconditionally; see the counterexample.) -/
theorem scmAddRoute_unique_ids :
    (∀ rs : List Route, ((scmAddAll rs).map Route.id).Nodup)
    ∧ (∀ (routes : List Route) (route : Route),
        (routes.any fun r => r.id == route.id) = true →
        (scmAddRoute routes route).map Route.id = routes.map Route.id) := by
  constructor
  · intro rs
    exact scmAddAll_go rs [] (by simp)
  · intro routes route h
    induction routes with
    | nil => simp at h
    | cons r rest ih =>
      by_cases hb : r.id == route.id
      · have heq : r.id = route.id := by simpa using hb
        rw [scmAddRoute, if_pos hb]
        simp [heq]
      · rw [scmAddRoute, if_neg hb]
        simp only [List.any_cons, hb, Bool.false_or] at h
        simp [ih h]

/-- Witness for the amended C8 at concrete inputs: adding `dupRouteA`
then `dupRouteB` (same ID) through the config manager keeps IDs unique,
and the second insertion replaces in place (ID sequence unchanged). -/
theorem scmAddRoute_unique_ids_witness :
    ((scmAddAll [dupRouteA, dupRouteB]).map Route.id).Nodup
    ∧ (scmAddRoute [dupRouteA] dupRouteB).map Route.id
        = [dupRouteA].map Route.id :=
  ⟨scmAddRoute_unique_ids.1 [dupRouteA, dupRouteB],
   scmAddRoute_unique_ids.2 [dupRouteA] dupRouteB (by decide)⟩

/-! ### Round-robin selection (towards C7) -/

theorem dedupeAux_self {l : List Server} :
    ∀ seen : List String, (∀ s ∈ l, s.url ∉ seen) →
      (l.map Server.url).Nodup → dedupeAux seen l = l := by
  induction l with
  | nil => intro seen _ _; rfl
  | cons s rest ih =>
    intro seen hseen hnd
    simp only [List.map_cons, List.nodup_cons] at hnd
    obtain ⟨hhead, htail⟩ := hnd
    have hs : ¬ seen.contains s.url = true := by
      simpa using hseen s (List.mem_cons_self _ _)
    rw [dedupeAux, if_neg hs]
    congr 1
    apply ih _ _ htail
    intro x hx
    simp only [List.mem_cons, not_or]
    refine ⟨fun hx' => hhead (hx' ▸ List.mem_map_of_mem Server.url hx),
      hseen x (List.mem_cons_of_mem _ hx)⟩

theorem dedupeServers_self {l : List Server}
    (hnd : (l.map Server.url).Nodup) : dedupeServers l = l :=
  dedupeAux_self [] (by simp) hnd

theorem rrChoose_eq {servers : List Server} (hne : servers ≠ [])
    (hnd : (servers.map Server.url).Nodup) (st : Nat) :
    rrChoose st servers = (servers.get? (st % servers.length), st + 1) := by
  have hdl : dedupeServers servers = servers := dedupeServers_self hnd
  have hie : servers.isEmpty = false := by
    simpa [List.isEmpty_iff] using hne
  have hlt : st % servers.length < servers.length :=
    Nat.mod_lt _ (List.length_pos.mpr hne)
  simp only [rrChoose, hdl, hie]
  simp only [Bool.false_eq_true, if_false]
  rw [dif_neg not_false]
  rw [← List.get?_eq_get, hdl]

theorem runRR_eq {servers : List Server} (hne : servers ≠ [])
    (hnd : (servers.map Server.url).Nodup) :
    ∀ (n st : Nat), runRR servers n st
      = (List.range n).map fun j => servers.get? ((st + j) % servers.length) := by
  intro n
  induction n with
  | zero => intro st; rfl
  | succ n ih =>
    intro st
    rw [runRR, runChooser]
    rw [show runChooser rrChoose servers n (rrChoose st servers).2
        = runRR servers n (rrChoose st servers).2 from rfl]
    rw [rrChoose_eq hne hnd st, ih (st + 1), List.range_succ_eq_map,
      List.map_cons, List.map_map]
    congr 1
    apply List.map_congr_left
    intro j _
    simp only [Function.comp_apply]
    congr 2
    omega

theorem runRR_append {servers : List Server} (hne : servers ≠ [])
    (hnd : (servers.map Server.url).Nodup) (m n st : Nat) :
    runRR servers (m + n) st
      = runRR servers m st ++ runRR servers n (st + m) := by
  rw [runRR_eq hne hnd (m + n) st, runRR_eq hne hnd m st,
    runRR_eq hne hnd n (st + m), List.range_add, List.map_append, List.map_map]
  congr 1
  apply List.map_congr_left
  intro j _
  simp only [Function.comp_apply]
  congr 2
  omega

theorem countP_mod_range_one (K st i : Nat) (hK : 0 < K) (hi : i < K) :
    (List.range K).countP (fun j => (st + j) % K == i) = 1 := by
  set j₀ := (K + i - st % K) % K with hj₀def
  have hj₀K : j₀ < K := Nat.mod_lt _ hK
  have hle : st % K ≤ K + i :=
    le_trans (Nat.le_of_lt (Nat.mod_lt _ hK)) (Nat.le_add_right K i)
  have hhit : (st + j₀) % K = i := by
    rw [← Nat.mod_add_mod, hj₀def, Nat.add_mod_mod,
      Nat.add_sub_cancel' hle, Nat.add_mod_left, Nat.mod_eq_of_lt hi]
  have huniq : ∀ j, j < K → (st + j) % K = i → j = j₀ := by
    intro j hj hmod
    have hmods : (st + j) % K = (st + j₀) % K := by rw [hmod, hhit]
    have hcong : j ≡ j₀ [MOD K] :=
      Nat.ModEq.add_left_cancel (Nat.ModEq.refl st) hmods
    have h2 : j % K = j₀ % K := hcong
    rwa [Nat.mod_eq_of_lt hj, Nat.mod_eq_of_lt hj₀K] at h2
  have hcongr : (List.range K).countP (fun j => (st + j) % K == i)
      = (List.range K).countP (fun j => j == j₀) := by
    apply List.countP_congr
    intro x hx
    simp only [beq_iff_eq]
    exact ⟨huniq x (List.mem_range.mp hx), fun hx' => hx' ▸ hhit⟩
  rw [hcongr]
  exact List.count_eq_one_of_mem (List.nodup_range K) (List.mem_range.mpr hj₀K)

theorem countP_mod_range (K st i : Nat) (hK : 0 < K) (hi : i < K) :
    ∀ N, (List.range (K * N)).countP (fun j => (st + j) % K == i) = N := by
  intro N
  induction N with
  | zero => simp
  | succ N ih =>
    rw [Nat.mul_succ, List.range_add, List.countP_append, ih, List.countP_map]
    have hblock : (List.range K).countP
        ((fun j => (st + j) % K == i) ∘ (fun x => K * N + x))
        = (List.range K).countP (fun j => (st + j) % K == i) := by
      apply List.countP_congr
      intro x _
      simp only [Function.comp_apply, beq_iff_eq]
      rw [show st + (K * N + x) = (st + x) + K * N by omega,
        Nat.add_mul_mod_self_left]
    rw [hblock, countP_mod_range_one K st i hK hi]

theorem runRR_count {servers : List Server} (hne : servers ≠ [])
    (hnd : (servers.map Server.url).Nodup) (st N : Nat) {s : Server}
    (hs : s ∈ servers) :
    (runRR servers (servers.length * N) st).count (some s) = N := by
  have hK : 0 < servers.length := List.length_pos.mpr hne
  have hndserv : servers.Nodup := hnd.of_map
  obtain ⟨⟨i₀, hi₀lt⟩, hget⟩ := List.mem_iff_get.mp hs
  rw [runRR_eq hne hnd]
  show (List.map _ _).countP (· == some s) = N
  rw [List.countP_map]
  have hcongr : (List.range (servers.length * N)).countP
      ((· == some s) ∘ fun j => servers.get? ((st + j) % servers.length))
      = (List.range (servers.length * N)).countP
        (fun j => (st + j) % servers.length == i₀) := by
    apply List.countP_congr
    intro j _
    simp only [Function.comp_apply, beq_iff_eq]
    have hm : (st + j) % servers.length < servers.length := Nat.mod_lt _ hK
    constructor
    · intro hsome
      have h1 : servers.get? ((st + j) % servers.length) = servers.get? i₀ := by
        rw [hsome, List.get?_eq_get hi₀lt, hget]
      exact List.get?_inj hm hndserv h1
    · rintro rfl
      rw [List.get?_eq_get hi₀lt, hget]
  rw [hcongr, countP_mod_range servers.length st i₀ hK hi₀lt N]

/-- Claim C7: over a stable list of `K` uniquely-addressed servers,
`K·N` consecutive round-robin `ChooseServer` calls return each server
exactly `N` times; the sequence of choices is the cyclic indexing
`servers[(st + j) mod K]` of period `K`; and a run splits as consecutive
runs whose second part resumes from the advanced cursor (the server
following the last one chosen). -/
theorem roundRobin_cyclic (servers : List Server) (st N : Nat)
    (hnd : (servers.map Server.url).Nodup) (hK : 0 < servers.length) :
    (∀ s ∈ servers,
        (runRR servers (servers.length * N) st).count (some s) = N)
    ∧ (∀ j, j < servers.length * N →
        (runRR servers (servers.length * N) st).get? j
          = some (servers.get? ((st + j) % servers.length)))
    ∧ (∀ j, j + servers.length < servers.length * N →
        (runRR servers (servers.length * N) st).get? (j + servers.length)
          = (runRR servers (servers.length * N) st).get? j)
    ∧ (∀ m n, runRR servers (m + n) st
        = runRR servers m st ++ runRR servers n (st + m)) := by
  have hne : servers ≠ [] := List.length_pos.mp hK
  refine ⟨fun s hs => runRR_count hne hnd st N hs, ?_, ?_,
    fun m n => runRR_append hne hnd m n st⟩
  · intro j hj
    rw [runRR_eq hne hnd, List.get?_map, List.get?_range hj]
    rfl
  · intro j hj
    have hj' : j < servers.length * N := by omega
    rw [runRR_eq hne hnd, List.get?_map, List.get?_map,
      List.get?_range hj, List.get?_range hj']
    simp only [Option.map_some']
    congr 2
    rw [show st + (j + servers.length) = (st + j) + servers.length by omega,
      Nat.add_mod_right]

/-- Witness for C7: two servers, four calls from the initial cursor —
each server is chosen exactly twice, and a 4-call run is the two 2-call
runs in sequence, the second resuming from the advanced cursor. -/
theorem roundRobin_cyclic_witness :
    (runRR [srvA, srvB] ([srvA, srvB].length * 2) 0).count (some srvA) = 2
    ∧ runRR [srvA, srvB] (2 + 2) 0
        = runRR [srvA, srvB] 2 0 ++ runRR [srvA, srvB] 2 (0 + 2) :=
  ⟨(roundRobin_cyclic [srvA, srvB] 0 2 (by decide) (by decide)).1 srvA
      (by decide),
   (roundRobin_cyclic [srvA, srvB] 0 2 (by decide) (by decide)).2.2.2 2 2⟩

/-! ### Weighted round-robin selection (towards C6) -/

theorem sumWeights_aux (l : List Server) :
    ∀ a : Int, l.foldl (fun acc s => acc + s.weight) a = a + sumWeights l := by
  induction l with
  | nil => intro a; simp [sumWeights]
  | cons s rest ih =>
    intro a
    simp only [List.foldl_cons, sumWeights]
    rw [ih (a + s.weight), ih (0 + s.weight)]
    ring

theorem sumWeights_cons (s : Server) (rest : List Server) :
    sumWeights (s :: rest) = s.weight + sumWeights rest := by
  rw [sumWeights, List.foldl_cons, sumWeights_aux]
  ring

theorem sumWeights_nonneg : ∀ l : List Server,
    (∀ s ∈ l, 0 ≤ s.weight) → 0 ≤ sumWeights l := by
  intro l
  induction l with
  | nil => intro _; simp [sumWeights]
  | cons s rest ih =>
    intro hw
    rw [sumWeights_cons]
    have h1 := hw s (List.mem_cons_self _ _)
    have h2 := ih fun x hx => hw x (List.mem_cons_of_mem _ hx)
    omega

theorem flattenW_cons (s : Server) (rest : List Server) :
    flattenW (s :: rest) = List.replicate s.weight.toNat s ++ flattenW rest := by
  simp [flattenW]

theorem flattenW_length : ∀ l : List Server, (∀ s ∈ l, 0 ≤ s.weight) →
    (flattenW l).length = (sumWeights l).toNat := by
  intro l
  induction l with
  | nil => intro _; simp [flattenW, sumWeights]
  | cons s rest ih =>
    intro hw
    have hw0 : 0 ≤ s.weight := hw s (List.mem_cons_self _ _)
    have hwr : ∀ x ∈ rest, 0 ≤ x.weight := fun x hx => hw x (List.mem_cons_of_mem _ hx)
    have hr0 : 0 ≤ sumWeights rest := sumWeights_nonneg rest hwr
    rw [flattenW_cons, List.length_append, List.length_replicate, ih hwr,
      sumWeights_cons]
    omega

theorem wrrScan_shift (l : List Server) :
    ∀ c acc : Int, wrrScan c acc l = wrrScan (c - acc) 0 l := by
  induction l with
  | nil => intro c acc; rfl
  | cons s rest ih =>
    intro c acc
    simp only [wrrScan]
    by_cases h : c < acc + s.weight
    · rw [if_pos h, if_pos (by omega)]
    · rw [if_neg h, if_neg (by omega), ih c (acc + s.weight),
        ih (c - acc) (0 + s.weight),
        show c - (acc + s.weight) = c - acc - (0 + s.weight) by ring]

theorem wrrScan_flat : ∀ l : List Server, (∀ s ∈ l, 0 ≤ s.weight) →
    ∀ c : Nat, wrrScan (c : Int) 0 l = (flattenW l)[c]? := by
  intro l
  induction l with
  | nil => intro _ c; simp [wrrScan, flattenW]
  | cons s rest ih =>
    intro hw c
    have hw0 : 0 ≤ s.weight := hw s (List.mem_cons_self _ _)
    have hwr : ∀ x ∈ rest, 0 ≤ x.weight := fun x hx => hw x (List.mem_cons_of_mem _ hx)
    rw [flattenW_cons, List.getElem?_append]
    simp only [wrrScan, List.length_replicate]
    by_cases hc : c < s.weight.toNat
    · rw [if_pos (by omega), if_pos hc, List.getElem?_replicate, if_pos hc]
    · rw [if_neg (by omega), if_neg hc, wrrScan_shift,
        show (c : Int) - (0 + s.weight) = ((c - s.weight.toNat : Nat) : Int) by omega,
        ih hwr (c - s.weight.toNat)]

theorem wrrChoose_eq {servers : List Server}
    (hnd : (servers.map Server.url).Nodup)
    (hw : ∀ s ∈ servers, 0 ≤ s.weight) (hW : 0 < sumWeights servers) (st : Nat) :
    wrrChoose st servers
      = ((flattenW servers)[st % (sumWeights servers).toNat]?,
        (st + 1) % (sumWeights servers).toNat) := by
  have hne : servers ≠ [] := by
    intro h
    rw [h] at hW
    simp [sumWeights] at hW
  have hdl := dedupeServers_self hnd
  have hie : servers.isEmpty = false := by
    simpa [List.isEmpty_iff] using hne
  have hNpos : 0 < (sumWeights servers).toNat := by omega
  have habs : (sumWeights servers).natAbs = (sumWeights servers).toNat := by omega
  have hWne : (sumWeights servers == 0) = false := by
    simp only [beq_eq_false_iff_ne, ne_eq]
    omega
  have hlen : (flattenW servers).length = (sumWeights servers).toNat :=
    flattenW_length servers hw
  simp only [wrrChoose, hdl, hie, hWne]
  simp only [Bool.false_eq_true, if_false]
  rw [dif_neg not_false, habs, wrrScan_flat servers hw]
  cases hval : (flattenW servers)[st % (sumWeights servers).toNat]? with
  | none =>
    exfalso
    have hidx : st % (sumWeights servers).toNat < (flattenW servers).length := by
      rw [hlen]
      exact Nat.mod_lt _ hNpos
    rw [List.getElem?_eq_none_iff] at hval
    omega
  | some s => rfl

theorem runWRR_eq {servers : List Server}
    (hnd : (servers.map Server.url).Nodup)
    (hw : ∀ s ∈ servers, 0 ≤ s.weight) (hW : 0 < sumWeights servers) :
    ∀ n st : Nat, runWRR servers n st
      = (List.range n).map
          fun j => (flattenW servers)[(st + j) % (sumWeights servers).toNat]? := by
  intro n
  induction n with
  | zero => intro st; rfl
  | succ n ih =>
    intro st
    rw [runWRR, runChooser]
    rw [show runChooser wrrChoose servers n (wrrChoose st servers).2
        = runWRR servers n (wrrChoose st servers).2 from rfl]
    rw [wrrChoose_eq hnd hw hW st, ih ((st + 1) % (sumWeights servers).toNat),
      List.range_succ_eq_map, List.map_cons, List.map_map]
    congr 1
    apply List.map_congr_left
    intro j _
    simp only [Function.comp_apply]
    rw [Nat.mod_add_mod, show st + 1 + j = st + Nat.succ j by omega]

theorem map_getElem?_range : ∀ {α : Type} (l : List α),
    (List.range l.length).map (fun j => l[j]?) = l.map some := by
  intro α l
  induction l with
  | nil => rfl
  | cons a l ih =>
    rw [List.length_cons, List.range_succ_eq_map, List.map_cons, List.map_map,
      List.map_cons]
    congr 1
    · simp
    · have hcomp : ((fun j => (a :: l)[j]?) ∘ Nat.succ) = fun j => l[j]? := by
        funext j
        simp
      rw [hcomp, ih]

theorem count_some_map {α : Type} [BEq α] (x : α) :
    ∀ l : List α, (l.map some).count (some x) = l.count x := by
  intro l
  induction l with
  | nil => rfl
  | cons a l ih =>
    rw [List.map_cons, List.count_cons, List.count_cons, ih]
    rfl

theorem count_flattenW : ∀ l : List Server, (l.map Server.url).Nodup →
    ∀ {s : Server}, s ∈ l → (flattenW l).count s = s.weight.toNat := by
  intro l
  induction l with
  | nil => intro _ s hs; cases hs
  | cons t rest ih =>
    intro hnd s hs
    simp only [List.map_cons, List.nodup_cons] at hnd
    obtain ⟨hhead, htail⟩ := hnd
    rw [flattenW_cons, List.count_append]
    rcases List.mem_cons.mp hs with rfl | hs'
    · have hzero : (flattenW rest).count s = 0 := by
        rw [List.count_eq_zero]
        intro hmem
        rcases List.mem_flatMap.mp hmem with ⟨x, hx, hsx⟩
        have hxeq : s = x := List.eq_of_mem_replicate hsx
        exact hhead (hxeq ▸ List.mem_map_of_mem Server.url hx)
      rw [hzero, List.count_replicate]
      simp
    · have hts : ¬ (t == s) = true := by
        simp only [beq_iff_eq]
        intro heq
        exact hhead (heq ▸ List.mem_map_of_mem Server.url hs')
      rw [List.count_replicate, if_neg hts, ih htail hs']
      omega

theorem runWRR_count {servers : List Server}
    (hnd : (servers.map Server.url).Nodup)
    (hw : ∀ s ∈ servers, 0 ≤ s.weight) (hW : 0 < sumWeights servers)
    {s : Server} (hs : s ∈ servers) :
    (runWRR servers (sumWeights servers).toNat 0).count (some s)
      = s.weight.toNat := by
  have hlen : (flattenW servers).length = (sumWeights servers).toNat :=
    flattenW_length servers hw
  rw [runWRR_eq hnd hw hW]
  have hmapeq : (List.range (sumWeights servers).toNat).map
        (fun j => (flattenW servers)[(0 + j) % (sumWeights servers).toNat]?)
      = (List.range (sumWeights servers).toNat).map
        fun j => (flattenW servers)[j]? := by
    apply List.map_congr_left
    intro j hj
    rw [Nat.zero_add, Nat.mod_eq_of_lt (List.mem_range.mp hj)]
  rw [hmapeq, ← hlen, map_getElem?_range, count_some_map s (flattenW servers)]
  exact count_flattenW servers hnd hs

theorem wrr_zero_eq_rr (st : Nat) (servers : List Server)
    (h : sumWeights (dedupeServers servers) = 0) :
    wrrChoose st servers = rrChoose st servers := by
  by_cases h1 : servers.isEmpty
  · simp [wrrChoose, rrChoose, h1]
  · by_cases h2 : (dedupeServers servers).isEmpty
    · simp [wrrChoose, rrChoose, h1, h2]
    · have hbeq : (sumWeights (dedupeServers servers) == 0) = true := by
        simp [h]
      simp [wrrChoose, rrChoose, h1, h2, hbeq]

/-- Claim C6: from the initial cursor, over uniquely-addressed servers
with non-negative weights of total `W > 0`, `W` consecutive weighted
round-robin calls return each server exactly its weight many times; and
when the deduplicated input's total weight is zero, `ChooseServer`
coincides with the plain round-robin `ChooseServer` at the same cursor. -/
theorem weightedRoundRobin_proportional :
    (∀ servers : List Server,
        (servers.map Server.url).Nodup →
        (∀ s ∈ servers, 0 ≤ s.weight) →
        0 < sumWeights servers →
        ∀ s ∈ servers,
          (runWRR servers (sumWeights servers).toNat 0).count (some s)
            = s.weight.toNat)
    ∧ (∀ (st : Nat) (servers : List Server),
        sumWeights (dedupeServers servers) = 0 →
        wrrChoose st servers = rrChoose st servers) :=
  ⟨fun _ hnd hw hW _ hs => runWRR_count hnd hw hW hs, wrr_zero_eq_rr⟩

/-- Witness for C6: servers of weight 3 and 1, four calls from cursor 0 —
the weight-3 server is chosen exactly its weight many times; and on a
weight-0 server the weighted strategy equals plain round-robin at
cursor 5. -/
theorem weightedRoundRobin_proportional_witness :
    (runWRR [wsrvHigh, wsrvLow] (sumWeights [wsrvHigh, wsrvLow]).toNat 0).count
        (some wsrvHigh) = wsrvHigh.weight.toNat
    ∧ wrrChoose 5 [zsrv] = rrChoose 5 [zsrv] :=
  ⟨weightedRoundRobin_proportional.1 [wsrvHigh, wsrvLow] (by decide)
      (by decide) (by decide) wsrvHigh (by decide),
   weightedRoundRobin_proportional.2 5 [zsrv] (by decide)⟩

/-! ### Priority matching (towards C4) -/

theorem matchPreds_isOk : ∀ (ps : List Predicate) (path : String),
    (ps.all fun p => p.name != "Path"
      || (match p.args with | .strMap _ => true | .other => false)) = true →
    ∃ b, matchPreds ps path = .ok b := by
  intro ps path
  induction ps with
  | nil => intro _; exact ⟨false, rfl⟩
  | cons p rest ih =>
    intro h
    simp only [List.all_cons, Bool.and_eq_true] at h
    obtain ⟨hp, hrest⟩ := h
    rw [matchPreds]
    split
    · split
      · split
        · split
          · exact ⟨true, rfl⟩
          · exact ih hrest
        · exact ih hrest
      · next hname _ heq =>
        exfalso
        simp [heq, hname] at hp
        exact hp (by simpa using hname)
    · exact ih hrest

theorem matchRoute_eq {r : Route} (hwf : routeWF r = true) (path : String) :
    matchRoute r path = .ok (matchesB r path) := by
  obtain ⟨b, hb⟩ := matchPreds_isOk r.predicates path (by simpa [routeWF] using hwf)
  simp [matchesB, matchRoute, hb]

theorem routerMatch_find : ∀ (l : List Route) (path : String),
    (∀ r ∈ l, routeWF r = true) →
    routerMatch l path = .ok (l.find? fun r => matchesB r path) := by
  intro l path
  induction l with
  | nil => intro _; rfl
  | cons r rest ih =>
    intro hwf
    have hr := hwf r (List.mem_cons_self _ _)
    have hrest : ∀ x ∈ rest, routeWF x = true :=
      fun x hx => hwf x (List.mem_cons_of_mem _ hx)
    rw [routerMatch, matchRoute_eq hr]
    cases hb : matchesB r path with
    | true =>
      rw [@List.find?_cons_of_pos _ (fun x => matchesB x path) r rest hb]
    | false =>
      rw [@List.find?_cons_of_neg _ (fun x => matchesB x path) r rest
        (by simp [hb]), ih hrest]

theorem sortByOrder_perm (l : List Route) : List.Perm (sortByOrder l) l :=
  List.perm_insertionSort routeLE l

theorem sortByOrder_sorted (l : List Route) : List.Sorted routeLE (sortByOrder l) :=
  List.sorted_insertionSort routeLE l

theorem addAll_aux_perm : ∀ rs acc : List Route,
    List.Perm (rs.foldl routerAddRoute acc) (acc ++ rs) := by
  intro rs
  induction rs with
  | nil => intro acc; simp
  | cons r rest ih =>
    intro acc
    rw [List.foldl_cons]
    refine (ih (routerAddRoute acc r)).trans ?_
    refine (List.Perm.append_right rest (sortByOrder_perm (acc ++ [r]))).trans ?_
    rw [List.append_assoc, List.singleton_append]

theorem addAll_perm (rs : List Route) : List.Perm (addAll rs) rs := by
  simpa using addAll_aux_perm rs []

theorem addAll_sorted_aux : ∀ rs acc : List Route,
    List.Sorted routeLE acc → List.Sorted routeLE (rs.foldl routerAddRoute acc) := by
  intro rs
  induction rs with
  | nil => intro acc h; simpa using h
  | cons r rest ih =>
    intro acc _
    rw [List.foldl_cons]
    exact ih _ (sortByOrder_sorted _)

theorem addAll_sorted (rs : List Route) : List.Sorted routeLE (addAll rs) :=
  addAll_sorted_aux rs [] List.sorted_nil

theorem find?_min_sorted : ∀ {l : List Route}, List.Sorted routeLE l →
    ∀ {r : Route} (path : String),
    l.find? (fun x => matchesB x path) = some r →
    ∀ x ∈ l, matchesB x path = true → r.order ≤ x.order := by
  intro l
  induction l with
  | nil => intro _ r path hf; simp at hf
  | cons a rest ih =>
    intro hs r path hf x hx hmx
    rw [List.sorted_cons] at hs
    obtain ⟨ha, hrest⟩ := hs
    by_cases hma : matchesB a path
    · rw [@List.find?_cons_of_pos _ (fun x => matchesB x path) a rest hma] at hf
      cases hf
      rcases List.mem_cons.mp hx with rfl | hx'
      · exact le_refl _
      · exact ha x hx'
    · rw [@List.find?_cons_of_neg _ (fun x => matchesB x path) a rest
        (by simpa using hma)] at hf
      rcases List.mem_cons.mp hx with rfl | hx'
      · exact absurd hmx hma
      · exact ih hrest path hf x hx' hmx

/-- Claim C4: over any set of well-formed routes with pairwise distinct
`Order` values, `Match` on the table built by `AddRoute` returns a
matching route of strictly minimal `Order` when one exists, `none` when
no route matches, and never fails. -/
theorem match_smallest_order (rs : List Route) (path : String)
    (hwf : ∀ r ∈ rs, routeWF r = true)
    (hdist : (rs.map Route.order).Nodup) :
    MatchOutcome rs path := by
  have hperm := addAll_perm rs
  have hwf' : ∀ r ∈ addAll rs, routeWF r = true :=
    fun r hr => hwf r (hperm.mem_iff.mp hr)
  unfold MatchOutcome
  rw [routerMatch_find (addAll rs) path hwf']
  cases hf : (addAll rs).find? (fun r => matchesB r path) with
  | none =>
    show ∀ r ∈ rs, matchesB r path = false
    intro r hr
    have hnone := List.find?_eq_none.mp hf r (hperm.mem_iff.mpr hr)
    simpa using hnone
  | some r =>
    have hmem_r : r ∈ rs := hperm.mem_iff.mp (List.mem_of_find?_eq_some hf)
    have hsome : matchesB r path = true := by
      have h3 := List.find?_some hf
      simpa using h3
    refine ⟨hmem_r, hsome, ?_, ?_⟩
    · intro x hx hmx
      exact find?_min_sorted (addAll_sorted rs) path hf x (hperm.mem_iff.mpr hx) hmx
    · intro x hx hne hmx
      have hle := find?_min_sorted (addAll_sorted rs) path hf x
        (hperm.mem_iff.mpr hx) hmx
      have hord : r.order ≠ x.order := by
        intro heq
        exact hne (List.inj_on_of_nodup_map hdist hx hmem_r heq.symm)
      omega

/-- Witness for C4: two routes both matching `/x`, with orders 1 and 0 —
`Match` must return the `Order 0` route. -/
theorem match_smallest_order_witness : MatchOutcome [exactLow, exactHigh] "/x" :=
  match_smallest_order [exactLow, exactHigh] "/x" (by decide) (by decide)

end GoGateway
